import Mathlib

/-!
Shallow embedding of the lottery draw-orchestration core
(`draw.js` / `DrawManager`, `prizes.js` / `PrizeManager`,
`winners.js` / `WinnerManager`, `slotmachine.js` / `SlotMachine`,
`app.js` / `LotteryApp.selectPrize`, `admin.js` prize validation).

Pure JS values become Lean structures; the mutable fields of the
managers become one record `AppState`; each method becomes a function
`AppState → AppState` (randomness and the clock are passed as explicit
parameters).  DOM/audio/animation statements are dropped, except for
`updateButtons`'s assignment `this.state = STATE.COMPLETE`, which is a
real state mutation and is modelled by `applyUpdateButtons` at exactly
the points where the source calls `updateButtons`/`updateUI`.
-/

namespace Lottery

/-- Participant rows `{ id, name }` (participants.json / CSV import). -/
structure Participant where
  id : String
  name : String
deriving DecidableEq, Repr

/-- Prize tier rows `{ id, name, name_vi, quantity }` (prizes.json / CSV
import).  `id` and `quantity` are JS numbers; imports produce integers. -/
structure Prize where
  id : Int
  name : String
  name_vi : String
  quantity : Int
deriving DecidableEq, Repr

/-- A prize-queue entry: `{ ...prize, instance: i + 1 }` as pushed by
`PrizeManager.buildPrizeQueue`.  The field `instance` of the source is a
Lean keyword and is called `inst` here. -/
structure QueueEntry where
  id : Int
  name : String
  name_vi : String
  quantity : Int
  inst : Nat
deriving DecidableEq, Repr

/-- A winner-ledger entry: `{ ...participant, prize: snapshot, timestamp }`
as built by `WinnerManager.addWinner`.  The prize snapshot copies exactly
the five fields of a queue entry, so it is a `QueueEntry`. -/
structure WinnerEntry where
  id : String
  name : String
  prize : QueueEntry
  timestamp : Nat
deriving DecidableEq, Repr

/-- `DrawManager` phases (the `STATE` constant of draw.js). -/
inductive Phase where
  | ready
  | spinning
  | stopped
  | complete
deriving DecidableEq, Repr

/-- The combined mutable state of SlotMachine (participant pool and spin
flags), PrizeManager (tier list, expanded queue, cursor), WinnerManager
(ledger) and DrawManager (phase, pending winner), plus the app's
`originalParticipants` used by reset. -/
structure AppState where
  participants : List Participant
  originalParticipants : List Participant
  originalPrizes : List Prize
  prizeQueue : List QueueEntry
  currentIndex : Nat
  winners : List WinnerEntry
  phase : Phase
  pendingWinner : Option Participant
  slotPending : Option Participant
  isSpinning : Bool
  stopRequested : Bool
deriving DecidableEq, Repr

/-! ### PrizeManager -/

/-- Stable insertion of a tier into a list sorted by id descending,
mirroring the effect of `[...prizes].sort((a, b) => b.id - a.id)`
(a before b exactly when `b.id - a.id ≤ 0`). -/
def insertTier (p : Prize) : List Prize → List Prize
  | [] => [p]
  | q :: rest => if q.id ≤ p.id then p :: q :: rest else q :: insertTier p rest

/-- `[...prizes].sort((a, b) => b.id - a.id)`: sort by id descending. -/
def sortTiers : List Prize → List Prize
  | [] => []
  | p :: rest => insertTier p (sortTiers rest)

/-- The inner loop of `buildPrizeQueue`: `for (let i = 0; i < prize.quantity;
i++) queue.push({ ...prize, instance: i + 1 })`.  A JS `for` with an integer
bound runs `max(quantity, 0)` times, i.e. `quantity.toNat` times. -/
def expandPrize (p : Prize) : List QueueEntry :=
  (List.range p.quantity.toNat).map (fun i => ⟨p.id, p.name, p.name_vi, p.quantity, i + 1⟩)

/-- Concatenation of the per-tier blocks, in tier order. -/
def expandAll : List Prize → List QueueEntry
  | [] => []
  | p :: rest => expandPrize p ++ expandAll rest

/-- `PrizeManager.buildPrizeQueue`: sort tiers by id descending, then expand
each tier into `quantity` consecutive entries. -/
def buildPrizeQueue (prizes : List Prize) : List QueueEntry :=
  expandAll (sortTiers prizes)

/-- `PrizeManager.getCurrentPrize`: `queue[currentIndex]`, `null` when the
cursor is at or past the end. -/
def getCurrentPrize (s : AppState) : Option QueueEntry :=
  s.prizeQueue[s.currentIndex]?

/-- `PrizeManager.advanceToNextPrize`: `if (currentIndex < queue.length)
currentIndex++`. -/
def advanceCursor (i len : Nat) : Nat :=
  if i < len then i + 1 else i

/-- `PrizeManager.undoLastPrize`: `if (currentIndex > 0) currentIndex--`. -/
def retreatCursor (i : Nat) : Nat :=
  if 0 < i then i - 1 else i

/-- Sum of the tier quantities (the `Σ quantity` of the specification);
negative quantities contribute nothing, as in the expansion loop. -/
def totalQuantity (prizes : List Prize) : Nat :=
  (prizes.map (fun p => p.quantity.toNat)).sum

/-! ### ParticipantPool (SlotMachine's `participants` array) -/

/-- `SlotMachine.addParticipant`: no-op returning `false` when the id is
already present, else push and return `true`. -/
def addParticipant (p : Participant) (pool : List Participant) : Bool × List Participant :=
  if pool.any (fun q => q.id == p.id) then (false, pool) else (true, pool ++ [p])

/-- `SlotMachine.removeParticipant`: `findIndex` by id then `splice(index, 1)`
— remove the first entry with the given id, no-op when absent. -/
def removeParticipant (pid : String) (pool : List Participant) : List Participant :=
  pool.eraseP (fun p => p.id == pid)

/-! ### DrawManager operations -/

/-- The state mutation inside `DrawManager.updateButtons`: when
`awardedCount >= totalPrizes || !hasParticipants()` the handler assigns
`this.state = STATE.COMPLETE`; otherwise it only renders buttons.  Applied
wherever the source calls `updateButtons()` or `updateUI()`. -/
def applyUpdateButtons (s : AppState) : AppState :=
  if s.prizeQueue.length ≤ s.winners.length ∨ s.participants.isEmpty then
    { s with phase := .complete }
  else s

/-- `DrawManager.canDraw`: READY, not complete (ledger count vs. total queue
length), and pool non-empty. -/
def canDraw (s : AppState) : Bool :=
  decide (s.phase = .ready) &&
  !(decide (s.prizeQueue.length ≤ s.winners.length)) &&
  !s.participants.isEmpty

/-- `DrawManager.startSpin`: guards on phase READY, ledger count below total,
pool non-empty; then `SlotMachine.startSpin` (refuses when already spinning),
which clears `pendingWinner`/`stopRequested`; on success phase becomes
SPINNING and `updateButtons()` runs. -/
def startSpin (s : AppState) : AppState :=
  if s.phase ≠ .ready then s
  else if s.prizeQueue.length ≤ s.winners.length then s
  else if s.participants.isEmpty then s
  else if s.isSpinning then s
  else applyUpdateButtons
    { s with isSpinning := true, stopRequested := false, slotPending := none,
             phase := .spinning }

/-- `DrawManager.stopSpin` + `SlotMachine.stop`: in SPINNING, request stop and
pick `participants[floor(random * length)]` as the slot machine's pending
winner.  The random draw is modelled by the parameter `k`; the picked index is
`k % length`, and an empty pool yields `undefined` (`none`). -/
def stopSpin (k : Nat) (s : AppState) : AppState :=
  if s.phase ≠ .spinning then s
  else if ¬ s.isSpinning ∨ s.stopRequested then s
  else { s with stopRequested := true,
                slotPending := s.participants[k % s.participants.length]? }

/-- `DrawManager.onSpinComplete(winner)`: ignore a null report, otherwise
store the pending winner, enter STOPPED and run `updateButtons()`.  No other
check (in particular no draw-session check) is performed. -/
def onSpinComplete (w : Option Participant) (s : AppState) : AppState :=
  match w with
  | none => s
  | some p => applyUpdateButtons { s with pendingWinner := some p, phase := .stopped }

/-- Delivery of the `spinComplete` event: `SlotMachine.finishSpin` runs only
after a stop was requested, sets `isSpinning = false` and dispatches the event
whose `detail.winner` reads `this.pendingWinner` at dispatch time; the
DrawManager listener then runs `onSpinComplete`. -/
def report (s : AppState) : AppState :=
  if s.isSpinning ∧ s.stopRequested then
    onSpinComplete s.slotPending { s with isSpinning := false }
  else s

/-- Result of a `confirmWinner` call: guard failure returns without touching
anything (`noop`); with a null current prize, `WinnerManager.addWinner`
dereferences `prize.id` on `null` and throws a TypeError before any mutation
(`crashNullPrize`); otherwise the confirm commits. -/
inductive ConfirmOutcome where
  | noop (s : AppState)
  | crashNullPrize
  | committed (s : AppState)
deriving DecidableEq, Repr

/-- `WinnerManager.addWinner`'s entry: `{ ...participant, prize: {id, name,
name_vi, instance, quantity}, timestamp: Date.now() }`. -/
def mkWinnerEntry (p : Participant) (pz : QueueEntry) (now : Nat) : WinnerEntry :=
  ⟨p.id, p.name, pz, now⟩

/-- `DrawManager.confirmWinner`: requires STOPPED with a pending winner;
records the winner against `getCurrentPrize()`, removes the participant from
the pool, advances the cursor, clears pending state, returns to READY and runs
`updateUI()`. -/
def confirmWinner (now : Nat) (s : AppState) : ConfirmOutcome :=
  if s.phase ≠ .stopped then .noop s
  else
    match s.pendingWinner with
    | none => .noop s
    | some w =>
      match getCurrentPrize s with
      | none => .crashNullPrize
      | some pz =>
        .committed (applyUpdateButtons
          { s with winners := s.winners ++ [mkWinnerEntry w pz now],
                   participants := removeParticipant w.id s.participants,
                   currentIndex := advanceCursor s.currentIndex s.prizeQueue.length,
                   pendingWinner := none,
                   slotPending := none,
                   phase := .ready })

/-- `confirmWinner` as a state transformer: guard failure is the source's
early `return`, and the TypeError leaves every field untouched (the exception
escapes the click handler before any assignment ran). -/
def confirmStep (now : Nat) (s : AppState) : AppState :=
  match confirmWinner now s with
  | .noop t => t
  | .crashNullPrize => s
  | .committed t => t

/-- `DrawManager.respin`: in STOPPED, discard the pending winner,
`SlotMachine.reset()` (clears spin flags and slot pending), back to READY,
`updateButtons()`. -/
def respin (s : AppState) : AppState :=
  if s.phase ≠ .stopped then s
  else applyUpdateButtons
    { s with pendingWinner := none, slotPending := none, isSpinning := false,
             stopRequested := false, phase := .ready }

/-- `DrawManager.undoLastDraw`: `WinnerManager.removeLastWinner()` (null on an
empty ledger — then nothing happens); otherwise retreat the cursor
(`undoLastPrize`), re-add the participant, force READY and run `updateUI()`.
There is no phase guard. -/
def undoLastDraw (s : AppState) : Option WinnerEntry × AppState :=
  match s.winners.getLast? with
  | none => (none, s)
  | some w =>
    (some w, applyUpdateButtons
      { s with winners := s.winners.dropLast,
               currentIndex := retreatCursor s.currentIndex,
               participants := (addParticipant ⟨w.id, w.name⟩ s.participants).2,
               phase := .ready })

/-- The state part of `undoLastDraw`. -/
def undoStep (s : AppState) : AppState :=
  (undoLastDraw s).2

/-- `DrawManager.readdWinner`: `WinnerManager.removeWinnerById` (findIndex by
participant id, splice the first match) and re-add the participant to the
pool.  Neither the cursor nor the phase is touched; no `updateUI()` runs. -/
def readdWinner (pid : String) (s : AppState) : Option WinnerEntry × AppState :=
  match s.winners.find? (fun e => e.id == pid) with
  | none => (none, s)
  | some w =>
    (some w,
      { s with winners := s.winners.eraseP (fun e => e.id == pid),
               participants := (addParticipant ⟨w.id, w.name⟩ s.participants).2 })

/-- The state part of `readdWinner`. -/
def readdStep (pid : String) (s : AppState) : AppState :=
  (readdWinner pid s).2

/-- `DrawManager.reset(originalParticipants)`: reset cursor, clear ledger,
replace the pool with the original participants, `SlotMachine.reset()`,
clear pending, READY, `updateUI()`. -/
def resetDraw (s : AppState) : AppState :=
  applyUpdateButtons
    { s with currentIndex := 0, winners := [],
             participants := s.originalParticipants,
             isSpinning := false, stopRequested := false, slotPending := none,
             pendingWinner := none, phase := .ready }

/-! ### Manual prize selection (`LotteryApp.selectPrize`) -/

/-- The counting `findIndex` inside `selectPrize`: index of the `occ`-th
(1-based) queue entry whose tier id matches. -/
def findOccurrence (tid : Int) (occ : Nat) : List QueueEntry → Option Nat
  | [] => none
  | e :: rest =>
    if e.id = tid then
      if occ ≤ 1 then some 0
      else (findOccurrence tid (occ - 1) rest).map (· + 1)
    else (findOccurrence tid occ rest).map (· + 1)

/-- `LotteryApp.selectPrize(prizeId)`: look the tier up in `originalPrizes`,
bail out when every instance is awarded (`getWinnersByPrize(id).length`),
otherwise jump the cursor to the `(awarded + 1)`-th slot of that tier and run
`updateUI()`. -/
def selectPrize (tid : Int) (s : AppState) : AppState :=
  match s.originalPrizes.find? (fun p => p.id == tid) with
  | none => s
  | some pz =>
    if pz.quantity ≤ ((s.winners.filter (fun w => w.prize.id == tid)).length : Int) then s
    else
      match findOccurrence tid ((s.winners.filter (fun w => w.prize.id == tid)).length + 1)
          s.prizeQueue with
      | none => s
      | some idx => applyUpdateButtons { s with currentIndex := idx }

/-! ### Admin CSV-import validation (`AdminPanel.handleImport`, prizes) -/

/-- One row of the prize validation `data.every(p => p.id > 0 && p.name.length
> 0 && p.name.length <= 100 && p.quantity > 0 && p.quantity <= 1000 &&
Number.isInteger(p.quantity))` (integrality is implicit here). -/
def validPrizeRow (p : Prize) : Bool :=
  decide (0 < p.id) && decide (0 < p.name.length) && decide (p.name.length ≤ 100) &&
  decide (0 < p.quantity) && decide (p.quantity ≤ 1000)

/-- The whole-list prize validation of the import path; when it is `false`
the import throws and the tier list never reaches `buildPrizeQueue`. -/
def validatePrizes (prizes : List Prize) : Bool :=
  prizes.all validPrizeRow

/-! ### Initial states and reachability -/

/-- The state right after `LotteryApp.initComponents` and the initial
`updateUI()`: fresh managers over the loaded participants and tiers
(cursor 0, empty ledger, READY). -/
def initState (ps : List Participant) (tiers : List Prize) : AppState :=
  applyUpdateButtons
    { participants := ps, originalParticipants := ps, originalPrizes := tiers,
      prizeQueue := buildPrizeQueue tiers, currentIndex := 0, winners := [],
      phase := .ready, pendingWinner := none, slotPending := none,
      isSpinning := false, stopRequested := false }

/-- The pool ids are pairwise distinct (the participant data-model contract:
`id` unique within the pool). -/
def NodupIds (l : List Participant) : Prop :=
  (l.map (fun p => p.id)).Nodup

instance (l : List Participant) : Decidable (NodupIds l) := by
  unfold NodupIds; infer_instance

/-- One orchestrator operation, as callable from the UI. -/
inductive Step : AppState → AppState → Prop where
  | startSpin (s : AppState) : Step s (startSpin s)
  | stopSpin (k : Nat) (s : AppState) : Step s (stopSpin k s)
  | report (s : AppState) : Step s (report s)
  | confirm (now : Nat) (s : AppState) : Step s (confirmStep now s)
  | respin (s : AppState) : Step s (respin s)
  | undo (s : AppState) : Step s (undoStep s)
  | readd (pid : String) (s : AppState) : Step s (readdStep pid s)
  | reset (s : AppState) : Step s (resetDraw s)
  | selectPrize (tid : Int) (s : AppState) : Step s (selectPrize tid s)

/-- States reachable from a freshly initialised app (with the data-model
contract that participant ids are unique) through orchestrator operations. -/
inductive Reachable : AppState → Prop where
  | init (ps : List Participant) (tiers : List Prize) (h : NodupIds ps) :
      Reachable (initState ps tiers)
  | step {s t : AppState} : Reachable s → Step s t → Reachable t

/-! ### Confirm/undo round trips -/

/-- One full draw cycle: SPIN, STOP (random draw `k`), winner report, CONFIRM
at time `now`.  `some` exactly when the confirm commits. -/
def runCycles : List (Nat × Nat) → AppState → Option AppState
  | [], s => some s
  | (k, now) :: ps, s =>
    match confirmWinner now (report (stopSpin k (startSpin s))) with
    | .committed t => runCycles ps t
    | _ => none

/-- `n` consecutive `undoLastDraw` calls. -/
def undoN : Nat → AppState → AppState
  | 0, s => s
  | n + 1, s => undoN n (undoStep s)

/-! ### Generic helpers: lists with pairwise-distinct keys -/

theorem find?_key_unique {α β : Type} [BEq β] [LawfulBEq β] (key : α → β)
    {l : List α} {t : α} (hnd : (l.map key).Nodup) (ht : t ∈ l) :
    l.find? (fun x => key x == key t) = some t := by
  induction l with
  | nil => cases ht
  | cons p rest ih =>
    simp only [List.map_cons, List.nodup_cons, List.mem_map] at hnd
    rcases List.mem_cons.mp ht with rfl | hmem
    · simp [List.find?]
    · have hne : ¬ key p == key t := by
        intro h
        exact hnd.1 ⟨t, hmem, (beq_iff_eq.mp h).symm⟩
      simp only [List.find?, hne]
      exact ih hnd.2 hmem

theorem eraseP_key_not_mem {α β : Type} [BEq β] [LawfulBEq β] (key : α → β)
    {l : List α} {t : α} (hnd : (l.map key).Nodup) (ht : t ∈ l) :
    ∀ x ∈ l.eraseP (fun e => key e == key t), key x ≠ key t := by
  induction l with
  | nil => intro x hx; cases hx
  | cons p rest ih =>
    simp only [List.map_cons, List.nodup_cons, List.mem_map] at hnd
    intro x hx
    by_cases hp : (key p == key t) = true
    · rw [List.eraseP_cons, hp, cond_true] at hx
      intro hkey
      rcases List.mem_cons.mp ht with rfl | hmem
      · exact hnd.1 ⟨x, hx, hkey⟩
      · exact hnd.1 ⟨t, hmem, (beq_iff_eq.mp hp).symm⟩
    · rw [List.eraseP_cons, Bool.of_not_eq_true hp, cond_false] at hx
      rcases List.mem_cons.mp hx with rfl | hx2
      · exact fun hk => hp (beq_iff_eq.mpr hk)
      · rcases List.mem_cons.mp ht with rfl | hmem
        · exact absurd (beq_self_eq_true (key t)) hp
        · exact ih hnd.2 hmem x hx2

theorem eraseP_key_append_perm {α β : Type} [BEq β] [LawfulBEq β] (key : α → β)
    {l : List α} {t : α} (hnd : (l.map key).Nodup) (ht : t ∈ l) :
    List.Perm ((l.eraseP (fun e => key e == key t)) ++ [t]) l := by
  induction l with
  | nil => cases ht
  | cons p rest ih =>
    simp only [List.map_cons, List.nodup_cons, List.mem_map] at hnd
    by_cases hp : (key p == key t) = true
    · have : p = t := by
        rcases List.mem_cons.mp ht with rfl | hmem
        · rfl
        · exact absurd ⟨t, hmem, (beq_iff_eq.mp hp).symm⟩ hnd.1
      subst this
      rw [List.eraseP_cons, hp, cond_true]
      exact List.perm_append_singleton p rest
    · have hmem : t ∈ rest := by
        rcases List.mem_cons.mp ht with rfl | hmem
        · exact absurd (beq_self_eq_true (key t)) hp
        · exact hmem
      rw [List.eraseP_cons, Bool.of_not_eq_true hp, cond_false, List.cons_append]
      exact (ih hnd.2 hmem).cons p

/-! ### Structure of the prize queue -/

theorem length_expandPrize (p : Prize) : (expandPrize p).length = p.quantity.toNat := by
  simp [expandPrize]

theorem mem_expandAll_id {e : QueueEntry} :
    ∀ {l : List Prize}, e ∈ expandAll l → ∃ p ∈ l, e.id = p.id := by
  intro l
  induction l with
  | nil => intro h; cases h
  | cons p rest ih =>
    intro h
    rcases List.mem_append.mp h with h1 | h2
    · refine ⟨p, List.mem_cons_self _ _, ?_⟩
      simp only [expandPrize, List.mem_map, List.mem_range] at h1
      obtain ⟨i, _, rfl⟩ := h1
      rfl
    · obtain ⟨q, hq, he⟩ := ih h2
      exact ⟨q, List.mem_cons_of_mem _ hq, he⟩

theorem insertTier_perm (p : Prize) (l : List Prize) :
    List.Perm (insertTier p l) (p :: l) := by
  induction l with
  | nil => exact List.Perm.refl _
  | cons q rest ih =>
    unfold insertTier
    split
    · exact List.Perm.refl _
    · exact List.Perm.trans (ih.cons q) (List.Perm.swap p q rest)

theorem sortTiers_perm (l : List Prize) : List.Perm (sortTiers l) l := by
  induction l with
  | nil => exact List.Perm.refl _
  | cons p rest ih =>
    exact List.Perm.trans (insertTier_perm p (sortTiers rest)) (ih.cons p)

theorem insertTier_sorted {p : Prize} {l : List Prize}
    (h : List.Pairwise (fun a b => b.id ≤ a.id) l) :
    List.Pairwise (fun a b => b.id ≤ a.id) (insertTier p l) := by
  induction l with
  | nil => simp [insertTier]
  | cons q rest ih =>
    unfold insertTier
    rcases List.pairwise_cons.mp h with ⟨hq, hrest⟩
    split
    · rename_i hle
      refine List.pairwise_cons.mpr ⟨?_, h⟩
      intro b hb
      rcases List.mem_cons.mp hb with rfl | hbrest
      · exact hle
      · exact le_trans (hq b hbrest) hle
    · rename_i hgt
      refine List.pairwise_cons.mpr ⟨?_, ih hrest⟩
      intro b hb
      have hb2 : b ∈ p :: rest := (insertTier_perm p rest).mem_iff.mp hb
      rcases List.mem_cons.mp hb2 with rfl | hbrest
      · omega
      · exact hq b hbrest

theorem sortTiers_sorted (l : List Prize) :
    List.Pairwise (fun a b => b.id ≤ a.id) (sortTiers l) := by
  induction l with
  | nil => simp [sortTiers]
  | cons p rest ih => exact insertTier_sorted ih

theorem expandAll_append (l₁ l₂ : List Prize) :
    expandAll (l₁ ++ l₂) = expandAll l₁ ++ expandAll l₂ := by
  induction l₁ with
  | nil => simp [expandAll]
  | cons p rest ih => simp [expandAll, ih]

theorem length_expandAll (l : List Prize) : (expandAll l).length = totalQuantity l := by
  induction l with
  | nil => simp [expandAll, totalQuantity]
  | cons p rest ih =>
    simp only [expandAll, List.length_append, length_expandPrize, ih, totalQuantity,
      List.map_cons, List.sum_cons]

theorem totalQuantity_perm {l₁ l₂ : List Prize} (h : List.Perm l₁ l₂) :
    totalQuantity l₁ = totalQuantity l₂ :=
  List.Perm.sum_eq (h.map _)

theorem length_buildPrizeQueue (prizes : List Prize) :
    (buildPrizeQueue prizes).length = totalQuantity prizes := by
  rw [buildPrizeQueue, length_expandAll, totalQuantity_perm (sortTiers_perm prizes)]

theorem expandAll_pairwise {l : List Prize}
    (h : List.Pairwise (fun a b => b.id ≤ a.id) l) :
    List.Pairwise (fun e₁ e₂ : QueueEntry => e₂.id ≤ e₁.id) (expandAll l) := by
  induction l with
  | nil => simp [expandAll]
  | cons p rest ih =>
    rcases List.pairwise_cons.mp h with ⟨hp, hrest⟩
    refine List.pairwise_append.mpr ⟨?_, ih hrest, ?_⟩
    · refine List.pairwise_iff_forall_sublist.mpr ?_
      intro e₁ e₂ hsub
      have h₁ : e₁ ∈ expandPrize p := hsub.subset (by simp)
      have h₂ : e₂ ∈ expandPrize p := hsub.subset (by simp)
      simp only [expandPrize, List.mem_map, List.mem_range] at h₁ h₂
      obtain ⟨i, _, rfl⟩ := h₁
      obtain ⟨j, _, rfl⟩ := h₂
      exact le_refl _
    · intro e₁ h₁ e₂ h₂
      obtain ⟨q, hq, he₂⟩ := mem_expandAll_id h₂
      simp only [expandPrize, List.mem_map, List.mem_range] at h₁
      obtain ⟨i, _, rfl⟩ := h₁
      simpa [he₂] using hp q hq

theorem buildPrizeQueue_pairwise (prizes : List Prize) :
    List.Pairwise (fun e₁ e₂ : QueueEntry => e₂.id ≤ e₁.id) (buildPrizeQueue prizes) :=
  expandAll_pairwise (sortTiers_sorted prizes)

theorem mem_expandPrize_id {e : QueueEntry} {p : Prize} (h : e ∈ expandPrize p) :
    e.id = p.id := by
  simp only [expandPrize, List.mem_map, List.mem_range] at h
  obtain ⟨i, _, rfl⟩ := h
  rfl

theorem filter_expandAll_of_no_match {tid : Int} :
    ∀ {l : List Prize}, (∀ p ∈ l, p.id ≠ tid) →
      (expandAll l).filter (fun e => e.id == tid) = [] := by
  intro l h
  refine List.filter_eq_nil_iff.mpr ?_
  intro e he
  obtain ⟨p, hp, hid⟩ := mem_expandAll_id he
  simpa [hid] using h p hp

theorem filter_expandPrize_self (t : Prize) :
    (expandPrize t).filter (fun e => e.id == t.id) = expandPrize t := by
  refine List.filter_eq_self.mpr ?_
  intro e he
  simpa using mem_expandPrize_id he

theorem filter_expandAll_eq {l : List Prize} {t : Prize}
    (hnd : (l.map (fun p => p.id)).Nodup) (ht : t ∈ l) :
    (expandAll l).filter (fun e => e.id == t.id) = expandPrize t := by
  induction l with
  | nil => cases ht
  | cons p rest ih =>
    simp only [List.map_cons, List.nodup_cons, List.mem_map] at hnd
    rw [expandAll, List.filter_append]
    rcases List.mem_cons.mp ht with rfl | hmem
    · rw [filter_expandPrize_self,
        filter_expandAll_of_no_match (fun q hq heq => hnd.1 ⟨q, hq, heq⟩),
        List.append_nil]
    · have hne : p.id ≠ t.id := fun h => hnd.1 ⟨t, hmem, h.symm⟩
      have : (expandPrize p).filter (fun e => e.id == t.id) = [] := by
        refine List.filter_eq_nil_iff.mpr ?_
        intro e he
        simpa [mem_expandPrize_id he] using hne
      rw [this, List.nil_append, ih hnd.2 hmem]

theorem instances_expandPrize (t : Prize) :
    (expandPrize t).map (fun e => e.inst) =
      (List.range t.quantity.toNat).map (· + 1) := by
  simp [expandPrize, List.map_map, Function.comp]

theorem buildPrizeQueue_filter {prizes : List Prize} {t : Prize}
    (hnd : (prizes.map (fun p => p.id)).Nodup) (ht : t ∈ prizes) :
    (buildPrizeQueue prizes).filter (fun e => e.id == t.id) = expandPrize t := by
  have hperm := sortTiers_perm prizes
  exact filter_expandAll_eq ((hperm.map (fun p => p.id)).nodup_iff.mpr hnd)
    (hperm.mem_iff.mpr ht)

/-! ### The counting findIndex of `selectPrize` -/

theorem findOccurrence_cons (tid : Int) (occ : Nat) (e : QueueEntry) (l : List QueueEntry) :
    findOccurrence tid occ (e :: l) =
      if e.id = tid then
        if occ ≤ 1 then some 0 else (findOccurrence tid (occ - 1) l).map (· + 1)
      else (findOccurrence tid occ l).map (· + 1) :=
  rfl

theorem findOccurrence_lt_length {tid : Int} :
    ∀ {l : List QueueEntry} {occ i : Nat},
      findOccurrence tid occ l = some i → i < l.length := by
  intro l
  induction l with
  | nil => intro occ i h; simp [findOccurrence] at h
  | cons e rest ih =>
    intro occ i h
    rw [findOccurrence_cons] at h
    by_cases he : e.id = tid
    · rw [if_pos he] at h
      by_cases hocc : occ ≤ 1
      · rw [if_pos hocc] at h
        cases h
        simp
      · rw [if_neg hocc] at h
        obtain ⟨j, hj, rfl⟩ := Option.map_eq_some'.mp h
        have := ih hj
        simpa using this
    · rw [if_neg he] at h
      obtain ⟨j, hj, rfl⟩ := Option.map_eq_some'.mp h
      have := ih hj
      simpa using this

theorem findOccurrence_append_no_match {tid : Int} {occ : Nat} {l₂ : List QueueEntry} :
    ∀ {l₁ : List QueueEntry}, (∀ e ∈ l₁, e.id ≠ tid) →
      findOccurrence tid occ (l₁ ++ l₂) =
        (findOccurrence tid occ l₂).map (· + l₁.length) := by
  intro l₁
  induction l₁ with
  | nil => intro _; simp
  | cons e rest ih =>
    intro h
    have he : e.id ≠ tid := h e (List.mem_cons_self _ _)
    rw [List.cons_append, findOccurrence_cons, if_neg he,
      ih (fun x hx => h x (List.mem_cons_of_mem _ hx)), Option.map_map]
    cases findOccurrence tid occ l₂ with
    | none => simp
    | some j =>
      simp only [Option.map_some', Function.comp_apply, List.length_cons,
        Option.some.injEq]
      omega

theorem findOccurrence_all_match {tid : Int} :
    ∀ {b rest : List QueueEntry} {occ : Nat}, (∀ e ∈ b, e.id = tid) →
      1 ≤ occ → occ ≤ b.length →
      findOccurrence tid occ (b ++ rest) = some (occ - 1) := by
  intro b
  induction b with
  | nil =>
    intro rest occ _ h1 h2
    simp only [List.length_nil] at h2
    omega
  | cons e b ih =>
    intro rest occ hall h1 h2
    rw [List.cons_append, findOccurrence_cons,
      if_pos (hall e (List.mem_cons_self _ _))]
    by_cases hocc : occ ≤ 1
    · rw [if_pos hocc]
      congr 1
      omega
    · simp only [List.length_cons] at h2
      rw [if_neg hocc,
        ih (fun x hx => hall x (List.mem_cons_of_mem _ hx)) (by omega) (by omega)]
      simp only [Option.map_some', Option.some.injEq]
      omega

/-! ### The reachability invariant -/

/-- Invariants maintained by every orchestrator operation: distinct ids in
the pool and in the ledger, pool/ledger disjointness, a cursor within
bounds, a queue in sync with the tier list, and pending winners that are
pool members. -/
structure Inv (s : AppState) : Prop where
  nodupPool : NodupIds s.participants
  nodupOrig : NodupIds s.originalParticipants
  nodupWin : (s.winners.map (fun w => w.id)).Nodup
  disj : ∀ w ∈ s.winners, ∀ p ∈ s.participants, p.id ≠ w.id
  cursorLe : s.currentIndex ≤ s.prizeQueue.length
  queueEq : s.prizeQueue = buildPrizeQueue s.originalPrizes
  slotMem : ∀ w, s.slotPending = some w → w ∈ s.participants
  pendMem : ∀ w, s.phase = .stopped → s.pendingWinner = some w → w ∈ s.participants

theorem inv_applyUpdateButtons {s : AppState} (h : Inv s) : Inv (applyUpdateButtons s) := by
  unfold applyUpdateButtons
  split
  · exact ⟨h.nodupPool, h.nodupOrig, h.nodupWin, h.disj, h.cursorLe, h.queueEq,
      h.slotMem, fun w hph => absurd hph (by simp)⟩
  · exact h

theorem applyUpdateButtons_fields (s : AppState) :
    (applyUpdateButtons s).participants = s.participants ∧
    (applyUpdateButtons s).originalParticipants = s.originalParticipants ∧
    (applyUpdateButtons s).originalPrizes = s.originalPrizes ∧
    (applyUpdateButtons s).prizeQueue = s.prizeQueue ∧
    (applyUpdateButtons s).currentIndex = s.currentIndex ∧
    (applyUpdateButtons s).winners = s.winners ∧
    (applyUpdateButtons s).pendingWinner = s.pendingWinner ∧
    (applyUpdateButtons s).slotPending = s.slotPending ∧
    (applyUpdateButtons s).isSpinning = s.isSpinning ∧
    (applyUpdateButtons s).stopRequested = s.stopRequested := by
  unfold applyUpdateButtons
  split <;> simp

theorem inv_startSpin {s : AppState} (h : Inv s) : Inv (startSpin s) := by
  unfold startSpin
  split
  · exact h
  split
  · exact h
  split
  · exact h
  split
  · exact h
  exact inv_applyUpdateButtons ⟨h.nodupPool, h.nodupOrig, h.nodupWin, h.disj,
    h.cursorLe, h.queueEq, fun w hw => by simp at hw,
    fun w hph => absurd hph (by simp)⟩

theorem inv_stopSpin {k : Nat} {s : AppState} (h : Inv s) : Inv (stopSpin k s) := by
  unfold stopSpin
  split
  · exact h
  split
  · exact h
  rename_i hph _
  refine ⟨h.nodupPool, h.nodupOrig, h.nodupWin, h.disj, h.cursorLe, h.queueEq, ?_, ?_⟩
  · intro w hw
    exact List.getElem?_mem hw
  · intro w hst _
    exact absurd ((not_ne_iff.mp hph).symm.trans hst) (by decide)

theorem inv_onSpinComplete {w : Option Participant} {s : AppState} (h : Inv s)
    (hmem : ∀ p, w = some p → p ∈ s.participants) : Inv (onSpinComplete w s) := by
  unfold onSpinComplete
  match w with
  | none => exact h
  | some p =>
    exact inv_applyUpdateButtons ⟨h.nodupPool, h.nodupOrig, h.nodupWin, h.disj,
      h.cursorLe, h.queueEq, h.slotMem,
      fun q _ hq => by injection hq with h2; exact h2 ▸ hmem p rfl⟩

theorem inv_report {s : AppState} (h : Inv s) : Inv (report s) := by
  unfold report
  split
  · refine inv_onSpinComplete ⟨h.nodupPool, h.nodupOrig, h.nodupWin, h.disj,
      h.cursorLe, h.queueEq, h.slotMem, ?_⟩ ?_
    · intro w hph hpend
      exact h.pendMem w hph hpend
    · intro p hp
      exact h.slotMem p hp
  · exact h

/-! ### Pool helper lemmas -/

theorem addParticipant_nodup {p : Participant} {pool : List Participant}
    (h : NodupIds pool) : NodupIds (addParticipant p pool).2 := by
  unfold addParticipant
  split
  · exact h
  · rename_i hany
    have hnm : p.id ∉ pool.map (fun q => q.id) := by
      intro hm
      obtain ⟨q, hq, hid⟩ := List.mem_map.mp hm
      exact hany (List.any_eq_true.mpr ⟨q, hq, by simp [hid]⟩)
    unfold NodupIds
    rw [List.map_append, List.nodup_append]
    exact ⟨h, List.nodup_singleton _, by
      intro x hx hx2
      simp only [List.map_cons, List.map_nil, List.mem_singleton] at hx2
      exact hnm (hx2 ▸ hx)⟩

theorem addParticipant_mem {p q : Participant} {pool : List Participant}
    (h : q ∈ pool) : q ∈ (addParticipant p pool).2 := by
  unfold addParticipant
  split
  · exact h
  · exact List.mem_append_left _ h

theorem addParticipant_id_mem {x : Participant} {p : Participant}
    {pool : List Participant} (hx : x ∈ (addParticipant p pool).2) :
    x ∈ pool ∨ x = p := by
  unfold addParticipant at hx
  split at hx
  · exact Or.inl hx
  · rcases List.mem_append.mp hx with h1 | h2
    · exact Or.inl h1
    · exact Or.inr (List.mem_singleton.mp h2)

theorem removeParticipant_nodup {pid : String} {pool : List Participant}
    (h : NodupIds pool) : NodupIds (removeParticipant pid pool) := by
  have h2 : (pool.map (fun q => q.id)).Nodup := h
  exact ((List.eraseP_sublist pool).map (fun q => q.id)).nodup h2

theorem applyUpdateButtons_phase_ne_stopped {s : AppState}
    (h : s.phase ≠ .stopped) : (applyUpdateButtons s).phase ≠ .stopped := by
  unfold applyUpdateButtons
  split
  · simp
  · exact h

/-! ### The shape of a committed confirm -/

theorem getCurrentPrize_lt {s : AppState} {pz : QueueEntry}
    (h : getCurrentPrize s = some pz) : s.currentIndex < s.prizeQueue.length :=
  (List.getElem?_eq_some.mp h).1

theorem confirm_committed_shape {now : Nat} {s t : AppState}
    (h : confirmWinner now s = .committed t) :
    ∃ w pz, s.phase = .stopped ∧ s.pendingWinner = some w ∧
      getCurrentPrize s = some pz ∧
      t.winners = s.winners ++ [mkWinnerEntry w pz now] ∧
      t.participants = removeParticipant w.id s.participants ∧
      t.currentIndex = s.currentIndex + 1 ∧
      t.prizeQueue = s.prizeQueue ∧
      t.originalPrizes = s.originalPrizes ∧
      t.originalParticipants = s.originalParticipants ∧
      t.pendingWinner = none ∧ t.slotPending = none := by
  unfold confirmWinner at h
  split at h
  · cases h
  rename_i hph
  have hph2 : s.phase = .stopped := not_ne_iff.mp hph
  split at h
  · cases h
  rename_i w hw
  split at h
  · cases h
  rename_i pz hpz
  cases h
  have hlt : s.currentIndex < s.prizeQueue.length := getCurrentPrize_lt hpz
  obtain ⟨f1, f2, f3, f4, f5, f6, f7, f8, f9, f10⟩ := applyUpdateButtons_fields
    { s with winners := s.winners ++ [mkWinnerEntry w pz now],
             participants := removeParticipant w.id s.participants,
             currentIndex := advanceCursor s.currentIndex s.prizeQueue.length,
             pendingWinner := none,
             slotPending := none,
             phase := Phase.ready }
  refine ⟨w, pz, hph2, hw, hpz, f6, f1, ?_, f4, f3, f2, f7, f8⟩
  rw [f5]
  simp only [advanceCursor, if_pos hlt]

theorem inv_confirm_committed {now : Nat} {s t : AppState} (h : Inv s)
    (hc : confirmWinner now s = .committed t) : Inv t := by
  obtain ⟨w, pz, hph, hw, hpz, e1, e2, e3, e4, e5, e6, e7, e8⟩ :=
    confirm_committed_shape hc
  have wmem : w ∈ s.participants := h.pendMem w hph hw
  have hwid : ∀ x ∈ removeParticipant w.id s.participants, x.id ≠ w.id := by
    intro x hx
    exact eraseP_key_not_mem (fun p : Participant => p.id) h.nodupPool wmem x hx
  refine ⟨?_, ?_, ?_, ?_, ?_, ?_, ?_, ?_⟩
  · rw [e2]
    exact removeParticipant_nodup h.nodupPool
  · rw [e6]
    exact h.nodupOrig
  · rw [e1, List.map_append, List.nodup_append]
    refine ⟨h.nodupWin, List.nodup_singleton _, ?_⟩
    intro x hx hx2
    simp only [mkWinnerEntry, List.map_cons, List.map_nil, List.mem_singleton] at hx2
    obtain ⟨e, he, hid⟩ := List.mem_map.mp hx
    subst hx2
    exact h.disj e he w wmem (hid ▸ rfl)
  · rw [e1, e2]
    intro e he p hp
    rcases List.mem_append.mp he with h1 | h2
    · exact h.disj e h1 p ((List.eraseP_sublist _).subset hp)
    · have : e = mkWinnerEntry w pz now := List.mem_singleton.mp h2
      subst this
      exact hwid p hp
  · rw [e3, e4]
    exact Nat.succ_le_of_lt (getCurrentPrize_lt hpz)
  · rw [e4, e5, h.queueEq]
  · intro q hq
    rw [e8] at hq
    cases hq
  · intro q _ hq
    rw [e7] at hq
    cases hq

theorem inv_confirmStep {now : Nat} {s : AppState} (h : Inv s) :
    Inv (confirmStep now s) := by
  unfold confirmStep
  split
  · rename_i t ht
    have : t = s := by
      unfold confirmWinner at ht
      split at ht
      · cases ht; rfl
      split at ht
      · cases ht; rfl
      split at ht
      · cases ht
      · cases ht
    exact this ▸ h
  · exact h
  · rename_i t ht
    exact inv_confirm_committed h ht

theorem inv_respin {s : AppState} (h : Inv s) : Inv (respin s) := by
  unfold respin
  split
  · exact h
  · exact inv_applyUpdateButtons ⟨h.nodupPool, h.nodupOrig, h.nodupWin, h.disj,
      h.cursorLe, h.queueEq, fun w hw => by simp at hw,
      fun w _ hw => by simp at hw⟩

theorem inv_undoStep {s : AppState} (h : Inv s) : Inv (undoStep s) := by
  unfold undoStep undoLastDraw
  split
  · exact h
  · rename_i w hw
    obtain ⟨l, hl⟩ := List.getLast?_eq_some_iff.mp hw
    have hdrop : s.winners.dropLast = l := by rw [hl, List.dropLast_concat]
    have hnodupl : (l.map (fun e => e.id)).Nodup := by
      have := h.nodupWin
      rw [hl, List.map_append, List.nodup_append] at this
      exact this.1
    have hwid : w.id ∉ l.map (fun e => e.id) := by
      have := h.nodupWin
      rw [hl, List.map_append, List.nodup_append] at this
      intro hm
      exact this.2.2 hm (by simp)
    refine inv_applyUpdateButtons ⟨?_, h.nodupOrig, ?_, ?_, ?_, h.queueEq, ?_, ?_⟩
    · exact addParticipant_nodup h.nodupPool
    · rw [hdrop]
      exact hnodupl
    · intro e he p hp
      rw [hdrop] at he
      rcases addParticipant_id_mem hp with hpold | hpnew
      · exact h.disj e (by rw [hl]; exact List.mem_append_left _ he) p hpold
      · subst hpnew
        intro hc
        exact hwid (List.mem_map.mpr ⟨e, he, hc.symm⟩)
    · have := h.cursorLe
      simp only [retreatCursor]
      split
      · omega
      · exact h.cursorLe
    · intro q hq
      exact addParticipant_mem (h.slotMem q hq)
    · intro q hph hq
      exact absurd hph (by simp)

theorem inv_readdStep {pid : String} {s : AppState} (h : Inv s) :
    Inv (readdStep pid s) := by
  unfold readdStep readdWinner
  split
  · exact h
  · rename_i w hw
    have wmem : w ∈ s.winners := List.mem_of_find?_eq_some hw
    have hwid : w.id = pid := by simpa using List.find?_some hw
    subst hwid
    refine ⟨?_, h.nodupOrig, ?_, ?_, h.cursorLe, h.queueEq, ?_, ?_⟩
    · exact addParticipant_nodup h.nodupPool
    · exact ((List.eraseP_sublist s.winners).map (fun e => e.id)).nodup h.nodupWin
    · intro e he p hp
      rcases addParticipant_id_mem hp with hpold | hpnew
      · exact h.disj e ((List.eraseP_sublist s.winners).subset he) p hpold
      · subst hpnew
        intro hc
        exact eraseP_key_not_mem (fun e : WinnerEntry => e.id) h.nodupWin wmem e he hc.symm
    · intro q hq
      exact addParticipant_mem (h.slotMem q hq)
    · intro q hph hq
      exact addParticipant_mem (h.pendMem q hph hq)

theorem inv_resetDraw {s : AppState} (h : Inv s) : Inv (resetDraw s) := by
  unfold resetDraw
  refine inv_applyUpdateButtons ⟨h.nodupOrig, h.nodupOrig, List.nodup_nil,
    ?_, ?_, h.queueEq, ?_, ?_⟩
  · intro e he
    cases he
  · exact Nat.zero_le _
  · intro q hq
    cases hq
  · intro q _ hq
    cases hq

theorem inv_selectPrize {tid : Int} {s : AppState} (h : Inv s) :
    Inv (selectPrize tid s) := by
  unfold selectPrize
  split
  · exact h
  split
  · exact h
  split
  · exact h
  · rename_i idx hidx
    exact inv_applyUpdateButtons ⟨h.nodupPool, h.nodupOrig, h.nodupWin, h.disj,
      Nat.le_of_lt (findOccurrence_lt_length hidx), h.queueEq, h.slotMem,
      fun w hph hw => h.pendMem w hph hw⟩

theorem inv_initState {ps : List Participant} {tiers : List Prize}
    (h : NodupIds ps) : Inv (initState ps tiers) := by
  unfold initState
  refine inv_applyUpdateButtons ⟨h, h, List.nodup_nil, ?_, Nat.zero_le _, rfl, ?_, ?_⟩
  · intro e he
    cases he
  · intro q hq
    cases hq
  · intro q _ hq
    cases hq

theorem inv_step {s t : AppState} (h : Inv s) (hstep : Step s t) : Inv t := by
  cases hstep with
  | startSpin => exact inv_startSpin h
  | stopSpin k => exact inv_stopSpin h
  | report => exact inv_report h
  | confirm now => exact inv_confirmStep h
  | respin => exact inv_respin h
  | undo => exact inv_undoStep h
  | readd pid => exact inv_readdStep h
  | reset => exact inv_resetDraw h
  | selectPrize tid => exact inv_selectPrize h

/-- Every reachable state satisfies the invariant. -/
theorem reachable_inv {s : AppState} (h : Reachable s) : Inv s := by
  induction h with
  | init ps tiers hnd => exact inv_initState hnd
  | step _ hstep ih => exact inv_step ih hstep

/-! ### The confirm/undo round-trip law -/

/-- The observables of the round-trip law: the ledger, the pool up to
order, and the cursor. -/
def PoolEquiv (s t : AppState) : Prop :=
  s.winners = t.winners ∧ List.Perm s.participants t.participants ∧
  s.currentIndex = t.currentIndex

theorem poolEquiv_refl (s : AppState) : PoolEquiv s s :=
  ⟨rfl, List.Perm.refl _, rfl⟩

theorem poolEquiv_trans {s t u : AppState} (h1 : PoolEquiv s t) (h2 : PoolEquiv t u) :
    PoolEquiv s u :=
  ⟨h1.1.trans h2.1, h1.2.1.trans h2.2.1, h1.2.2.trans h2.2.2⟩

theorem any_congr_perm {α : Type} {l₁ l₂ : List α} (h : List.Perm l₁ l₂)
    (f : α → Bool) : l₁.any f = l₂.any f := by
  cases h2 : l₂.any f with
  | true =>
    obtain ⟨x, hx, hfx⟩ := List.any_eq_true.mp h2
    exact List.any_eq_true.mpr ⟨x, h.mem_iff.mpr hx, hfx⟩
  | false =>
    have := List.any_eq_false.mp h2
    exact List.any_eq_false.mpr (fun x hx => this x (h.mem_iff.mp hx))

theorem addParticipant_congr {p : Participant} {l₁ l₂ : List Participant}
    (h : List.Perm l₁ l₂) :
    List.Perm (addParticipant p l₁).2 (addParticipant p l₂).2 := by
  unfold addParticipant
  rw [any_congr_perm h]
  split
  · exact h
  · exact h.append (List.Perm.refl [p])

theorem poolEquiv_symm {s t : AppState} (h : PoolEquiv s t) : PoolEquiv t s :=
  ⟨h.1.symm, h.2.1.symm, h.2.2.symm⟩

theorem poolEquiv_applyUpdateButtons (s : AppState) :
    PoolEquiv (applyUpdateButtons s) s := by
  unfold applyUpdateButtons
  split
  · exact ⟨rfl, List.Perm.refl _, rfl⟩
  · exact poolEquiv_refl s

theorem undoStep_congr {s t : AppState} (h : PoolEquiv s t) :
    PoolEquiv (undoStep s) (undoStep t) := by
  obtain ⟨hw, hp, hc⟩ := h
  unfold undoStep undoLastDraw
  cases hgl : s.winners.getLast? with
  | none =>
    have hgl2 : t.winners.getLast? = none := hw ▸ hgl
    rw [hgl2]
    exact ⟨hw, hp, hc⟩
  | some w =>
    have hgl2 : t.winners.getLast? = some w := hw ▸ hgl
    rw [hgl2]
    dsimp only
    have hxy : PoolEquiv
        { s with winners := s.winners.dropLast,
                 currentIndex := retreatCursor s.currentIndex,
                 participants := (addParticipant ⟨w.id, w.name⟩ s.participants).2,
                 phase := Phase.ready }
        { t with winners := t.winners.dropLast,
                 currentIndex := retreatCursor t.currentIndex,
                 participants := (addParticipant ⟨w.id, w.name⟩ t.participants).2,
                 phase := Phase.ready } := by
      refine ⟨?_, ?_, ?_⟩
      · dsimp only
        rw [hw]
      · dsimp only
        exact addParticipant_congr hp
      · dsimp only
        rw [hc]
    exact poolEquiv_trans (poolEquiv_applyUpdateButtons _)
      (poolEquiv_trans hxy (poolEquiv_symm (poolEquiv_applyUpdateButtons _)))

theorem startSpin_pool_fields (s : AppState) :
    (startSpin s).winners = s.winners ∧
    (startSpin s).participants = s.participants ∧
    (startSpin s).currentIndex = s.currentIndex := by
  unfold startSpin
  split
  · exact ⟨rfl, rfl, rfl⟩
  split
  · exact ⟨rfl, rfl, rfl⟩
  split
  · exact ⟨rfl, rfl, rfl⟩
  split
  · exact ⟨rfl, rfl, rfl⟩
  obtain ⟨f1, _, _, _, f5, f6, _, _, _, _⟩ := applyUpdateButtons_fields
    { s with isSpinning := true, stopRequested := false, slotPending := none,
             phase := Phase.spinning }
  exact ⟨f6, f1, f5⟩

theorem stopSpin_pool_fields (k : Nat) (s : AppState) :
    (stopSpin k s).winners = s.winners ∧
    (stopSpin k s).participants = s.participants ∧
    (stopSpin k s).currentIndex = s.currentIndex := by
  unfold stopSpin
  split
  · exact ⟨rfl, rfl, rfl⟩
  split
  · exact ⟨rfl, rfl, rfl⟩
  exact ⟨rfl, rfl, rfl⟩

theorem onSpinComplete_pool_fields (w : Option Participant) (s : AppState) :
    (onSpinComplete w s).winners = s.winners ∧
    (onSpinComplete w s).participants = s.participants ∧
    (onSpinComplete w s).currentIndex = s.currentIndex := by
  unfold onSpinComplete
  match w with
  | none => exact ⟨rfl, rfl, rfl⟩
  | some p =>
    obtain ⟨f1, _, _, _, f5, f6, _, _, _, _⟩ := applyUpdateButtons_fields
      { s with pendingWinner := some p, phase := Phase.stopped }
    exact ⟨f6, f1, f5⟩

theorem report_pool_fields (s : AppState) :
    (report s).winners = s.winners ∧
    (report s).participants = s.participants ∧
    (report s).currentIndex = s.currentIndex := by
  unfold report
  split
  · obtain ⟨f1, f2, f3⟩ := onSpinComplete_pool_fields s.slotPending
      { s with isSpinning := false }
    exact ⟨f1, f2, f3⟩
  · exact ⟨rfl, rfl, rfl⟩

theorem undo_confirm_committed {now : Nat} {u v : AppState} (h : Inv u)
    (hc : confirmWinner now u = .committed v) : PoolEquiv (undoStep v) u := by
  obtain ⟨w, pz, hph, hw, hpz, e1, e2, e3, e4, _, _, _, _⟩ :=
    confirm_committed_shape hc
  have wmem : w ∈ u.participants := h.pendMem w hph hw
  have hany : (removeParticipant w.id u.participants).any
      (fun q => q.id == w.id) = false := by
    refine List.any_eq_false.mpr ?_
    intro q hq
    have := eraseP_key_not_mem (fun p : Participant => p.id) h.nodupPool wmem q hq
    simpa using this
  unfold undoStep undoLastDraw
  rw [e1, List.getLast?_concat]
  dsimp only
  refine poolEquiv_trans (poolEquiv_applyUpdateButtons _) ⟨?_, ?_, ?_⟩
  · dsimp only
    rw [List.dropLast_concat]
  · dsimp only
    have hpart : (addParticipant ⟨(mkWinnerEntry w pz now).id,
        (mkWinnerEntry w pz now).name⟩ v.participants).2 =
        removeParticipant w.id u.participants ++ [w] := by
      show (addParticipant ⟨w.id, w.name⟩ v.participants).2 =
        removeParticipant w.id u.participants ++ [w]
      rw [e2]
      unfold addParticipant
      rw [hany]
      simp
    rw [hpart]
    exact eraseP_key_append_perm (fun p : Participant => p.id) h.nodupPool wmem
  · dsimp only
    rw [e3]
    simp [retreatCursor]

theorem undoN_succ_comm (n : Nat) (s : AppState) :
    undoN (n + 1) s = undoStep (undoN n s) := by
  induction n generalizing s with
  | zero => rfl
  | succ n ih =>
    show undoN (n + 1) (undoStep s) = undoStep (undoN (n + 1) s)
    rw [ih (undoStep s)]
    rfl

theorem roundtrip_inv : ∀ (ps : List (Nat × Nat)) {s t : AppState}, Inv s →
    runCycles ps s = some t → PoolEquiv (undoN ps.length t) s := by
  intro ps
  induction ps with
  | nil =>
    intro s t _ h
    cases h
    exact poolEquiv_refl _
  | cons p ps ih =>
    intro s t hinv h
    obtain ⟨k, now⟩ := p
    unfold runCycles at h
    split at h
    · rename_i s₁ hc
      have hm : Inv (report (stopSpin k (startSpin s))) :=
        inv_report (inv_stopSpin (inv_startSpin hinv))
      have hinv₁ : Inv s₁ := inv_confirm_committed hm hc
      have ihres := ih hinv₁ h
      have step1 : PoolEquiv (undoStep (undoN ps.length t)) (undoStep s₁) :=
        undoStep_congr ihres
      have step2 : PoolEquiv (undoStep s₁) (report (stopSpin k (startSpin s))) :=
        undo_confirm_committed hm hc
      have step3 : PoolEquiv (report (stopSpin k (startSpin s))) s := by
        obtain ⟨a1, a2, a3⟩ := startSpin_pool_fields s
        obtain ⟨b1, b2, b3⟩ := stopSpin_pool_fields k (startSpin s)
        obtain ⟨c1, c2, c3⟩ := report_pool_fields (stopSpin k (startSpin s))
        exact ⟨c1.trans (b1.trans a1), (c2.trans (b2.trans a2)) ▸ List.Perm.refl _,
          c3.trans (b3.trans a3)⟩
      rw [List.length_cons, undoN_succ_comm]
      exact poolEquiv_trans step1 (poolEquiv_trans step2 step3)
    · cases h

/-! ### Where manual prize selection lands -/

theorem selectPrize_lands {s : AppState} {t : Prize}
    (hq : s.prizeQueue = buildPrizeQueue s.originalPrizes)
    (hnd : (s.originalPrizes.map (fun p => p.id)).Nodup)
    (ht : t ∈ s.originalPrizes)
    (hk : ((s.winners.filter (fun w => w.prize.id == t.id)).length : Int) < t.quantity) :
    ∃ idx e,
      findOccurrence t.id
        ((s.winners.filter (fun w => w.prize.id == t.id)).length + 1) s.prizeQueue =
        some idx ∧
      selectPrize t.id s = applyUpdateButtons { s with currentIndex := idx } ∧
      s.prizeQueue[idx]? = some e ∧ e.id = t.id ∧
      e.inst = (s.winners.filter (fun w => w.prize.id == t.id)).length + 1 := by
  have hfind : s.originalPrizes.find? (fun p => p.id == t.id) = some t :=
    find?_key_unique (fun p : Prize => p.id) hnd ht
  set k := (s.winners.filter (fun w => w.prize.id == t.id)).length with hkdef
  have htm : t ∈ sortTiers s.originalPrizes :=
    (sortTiers_perm s.originalPrizes).mem_iff.mpr ht
  obtain ⟨l₁, l₂, hsplit⟩ := List.append_of_mem htm
  have hndsort : ((sortTiers s.originalPrizes).map (fun p => p.id)).Nodup :=
    ((sortTiers_perm s.originalPrizes).map (fun p => p.id)).nodup_iff.mpr hnd
  have hno : ∀ p ∈ l₁, p.id ≠ t.id := by
    rw [hsplit, List.map_append, List.nodup_append] at hndsort
    intro p hp heq
    exact hndsort.2.2 (List.mem_map.mpr ⟨p, hp, rfl⟩) (heq ▸ (by simp))
  have hqsplit : s.prizeQueue =
      expandAll l₁ ++ (expandPrize t ++ expandAll l₂) := by
    rw [hq, buildPrizeQueue, hsplit, expandAll_append]
    rfl
  have hnomatch : ∀ e ∈ expandAll l₁, e.id ≠ t.id := by
    intro e he
    obtain ⟨p, hp, hid⟩ := mem_expandAll_id he
    rw [hid]
    exact hno p hp
  have hlen : k + 1 ≤ (expandPrize t).length := by
    rw [length_expandPrize]
    omega
  have hfo : findOccurrence t.id (k + 1) s.prizeQueue =
      some (k + (expandAll l₁).length) := by
    rw [hqsplit, findOccurrence_append_no_match hnomatch,
      findOccurrence_all_match (fun e he => mem_expandPrize_id he) (by omega) hlen]
    simp
  have hentry : s.prizeQueue[k + (expandAll l₁).length]? =
      some ⟨t.id, t.name, t.name_vi, t.quantity, k + 1⟩ := by
    rw [hqsplit, List.getElem?_append_right (by omega)]
    have : k + (expandAll l₁).length - (expandAll l₁).length = k := by omega
    rw [this, List.getElem?_append, if_pos (by rw [length_expandPrize]; omega)]
    unfold expandPrize
    rw [List.getElem?_map, List.getElem?_range (by rw [length_expandPrize] at hlen; omega)]
    rfl
  refine ⟨k + (expandAll l₁).length, ⟨t.id, t.name, t.name_vi, t.quantity, k + 1⟩,
    hfo, ?_, hentry, rfl, rfl⟩
  unfold selectPrize
  rw [hfind]
  dsimp only
  rw [if_neg (by omega), hfo]

/-! ### Concrete runs used by the claim theorems -/

def pA : Participant := ⟨"1", "Alice"⟩

def pB : Participant := ⟨"2", "Bob"⟩

def pC : Participant := ⟨"3", "Carol"⟩

/-- Two single-instance tiers: grand prize (id 1) and first prize (id 2). -/
def tiersGF : List Prize := [⟨1, "G", "G", 1⟩, ⟨2, "F", "F", 1⟩]

/-- One tier with two instances. -/
def tiersP2 : List Prize := [⟨1, "P", "P", 2⟩]

def sInitGF : AppState := initState [pA, pB] tiersGF

/-- Manually select the grand prize (the back slot), award it, then spin
again: the cursor sits at the queue end while the ledger holds one of two
prizes, so the next confirm finds a null current prize. -/
def sCrash : AppState :=
  report (stopSpin 0 (startSpin (confirmStep 0 (report (stopSpin 0 (startSpin
    (selectPrize 1 sInitGF)))))))

theorem reachable_sCrash : Reachable sCrash :=
  Reachable.step (Reachable.step (Reachable.step (Reachable.step (Reachable.step
    (Reachable.step (Reachable.step (Reachable.step
      (Reachable.init [pA, pB] tiersGF (by decide))
      (Step.selectPrize 1 _)) (Step.startSpin _)) (Step.stopSpin 0 _))
      (Step.report _)) (Step.confirm 0 _)) (Step.startSpin _))
      (Step.stopSpin 0 _)) (Step.report _)

/-- One full draw on the two-instance tier: Alice wins instance 1. -/
def s4a : AppState :=
  confirmStep 0 (report (stopSpin 0 (startSpin (initState [pA, pB, pC] tiersP2))))

theorem reachable_s4a : Reachable s4a :=
  Reachable.step (Reachable.step (Reachable.step (Reachable.step
    (Reachable.init [pA, pB, pC] tiersP2 (by decide))
    (Step.startSpin _)) (Step.stopSpin 0 _)) (Step.report _)) (Step.confirm 0 _)

/-- A second draw: Bob wins instance 2; then the targeted removal of Alice
vacates instance 1 while the cursor stays at the queue end. -/
def s4 : AppState :=
  readdStep "1" (confirmStep 1 (report (stopSpin 0 (startSpin s4a))))

theorem reachable_s4 : Reachable s4 :=
  Reachable.step (Reachable.step (Reachable.step (Reachable.step (Reachable.step
    reachable_s4a
    (Step.startSpin _)) (Step.stopSpin 0 _)) (Step.report _)) (Step.confirm 1 _))
    (Step.readd "1" _)

/-- A spin stopped while an earlier winner is already on the ledger: the
orchestrator is in STOPPED with a non-empty ledger. -/
def s7 : AppState :=
  report (stopSpin 0 (startSpin s4a))

theorem reachable_s7 : Reachable s7 :=
  Reachable.step (Reachable.step (Reachable.step reachable_s4a
    (Step.startSpin _)) (Step.stopSpin 0 _)) (Step.report _)

/-- Reset invoked mid-spin, after the stop request picked Alice. -/
def sReset : AppState :=
  resetDraw (stopSpin 0 (startSpin sInitGF))

theorem reachable_sReset : Reachable sReset :=
  Reachable.step (Reachable.step (Reachable.step
    (Reachable.init [pA, pB] tiersGF (by decide))
    (Step.startSpin _)) (Step.stopSpin 0 _)) (Step.reset _)

/-- The state after one committed draw cycle from the fresh two-tier app. -/
def tRound : AppState :=
  confirmStep 0 (report (stopSpin 0 (startSpin sInitGF)))

/-- The Alice winner entry of `s4a`. -/
def wA : WinnerEntry := ⟨"1", "Alice", ⟨1, "P", "P", 2, 1⟩, 0⟩

/-! ### Claim theorems -/

/-- C5: for every tier list, the built prize queue has length equal to the
sum of the tiers' quantities, its entries are ordered by tier id descending,
and (for distinct tier ids) the entries of each tier carry instance numbers
ascending consecutively from 1 to that tier's quantity. -/
theorem c5_queue_structure (tiers : List Prize)
    (hnd : (tiers.map (fun p => p.id)).Nodup) :
    (buildPrizeQueue tiers).length = totalQuantity tiers ∧
    List.Pairwise (fun e₁ e₂ : QueueEntry => e₂.id ≤ e₁.id) (buildPrizeQueue tiers) ∧
    ∀ t ∈ tiers,
      ((buildPrizeQueue tiers).filter (fun e => e.id == t.id)).map (fun e => e.inst) =
        (List.range t.quantity.toNat).map (· + 1) :=
  ⟨length_buildPrizeQueue tiers, buildPrizeQueue_pairwise tiers,
    fun _ ht => by rw [buildPrizeQueue_filter hnd ht, instances_expandPrize]⟩

/-- Witness for C5 at the spec's scenario `[tier1 qty 1, tier2 qty 2]`:
the queue is `[tier2#1, tier2#2, tier1#1]` and a fresh app starts at
cursor 0. -/
theorem c5_queue_structure_witness :
    ((buildPrizeQueue [⟨1, "g", "g", 1⟩, ⟨2, "f", "f", 2⟩]).length =
        totalQuantity [⟨1, "g", "g", 1⟩, ⟨2, "f", "f", 2⟩] ∧
      List.Pairwise (fun e₁ e₂ : QueueEntry => e₂.id ≤ e₁.id)
        (buildPrizeQueue [⟨1, "g", "g", 1⟩, ⟨2, "f", "f", 2⟩]) ∧
      ∀ t ∈ [(⟨1, "g", "g", 1⟩ : Prize), ⟨2, "f", "f", 2⟩],
        ((buildPrizeQueue [⟨1, "g", "g", 1⟩, ⟨2, "f", "f", 2⟩]).filter
            (fun e => e.id == t.id)).map (fun e => e.inst) =
          (List.range t.quantity.toNat).map (· + 1)) ∧
    buildPrizeQueue [⟨1, "g", "g", 1⟩, ⟨2, "f", "f", 2⟩] =
      [⟨2, "f", "f", 2, 1⟩, ⟨2, "f", "f", 2, 2⟩, ⟨1, "g", "g", 1, 1⟩] ∧
    (initState [pA] [⟨1, "g", "g", 1⟩, ⟨2, "f", "f", 2⟩]).currentIndex = 0 :=
  ⟨c5_queue_structure [⟨1, "g", "g", 1⟩, ⟨2, "f", "f", 2⟩] (by decide),
    by decide, by decide⟩

/-- C6 counterexample: `buildPrizeQueue` performs no validation at all — a
tier with `id = 0` (and one with `quantity < 1`) silently produces a queue
instead of failing. -/
theorem c6_build_no_validation :
    buildPrizeQueue [⟨0, "x", "x", 1⟩] = [⟨0, "x", "x", 1, 1⟩] ∧
    buildPrizeQueue [⟨1, "y", "y", 0⟩] = [] ∧
    buildPrizeQueue [⟨1, "y", "y", -5⟩] = [] := by
  decide

/-- C6 amended: the CSV-import validation (the only validation in the code)
rejects every tier list containing a tier with `quantity < 1`,
`quantity > 1000` or `id ≤ 0`, so such lists never reach the queue builder;
the builder itself does not validate. -/
theorem c6_import_rejects_invalid (l : List Prize)
    (h : ∃ p ∈ l, p.quantity < 1 ∨ 1000 < p.quantity ∨ p.id ≤ 0) :
    validatePrizes l = false := by
  obtain ⟨p, hp, hbad⟩ := h
  refine List.all_eq_false.mpr ⟨p, hp, ?_⟩
  intro hval
  unfold validPrizeRow at hval
  simp only [Bool.and_eq_true, decide_eq_true_eq, and_assoc] at hval
  obtain ⟨h1, h2, h3, h4, h5⟩ := hval
  rcases hbad with hb | hb | hb <;> omega

/-- Witness for C6's amended statement. -/
theorem c6_import_rejects_invalid_witness :
    validatePrizes [⟨0, "x", "x", 1⟩] = false :=
  c6_import_rejects_invalid _ (by decide)

/-- C9: re-adding a participant whose id is already in the pool returns
`false` and leaves the pool unchanged, and consequently the ids in the pool
of every reachable state are pairwise distinct. -/
theorem c9_add_idempotent_nodup :
    (∀ (pool : List Participant) (p : Participant),
      pool.any (fun q => q.id == p.id) = true → addParticipant p pool = (false, pool)) ∧
    (∀ s : AppState, Reachable s → NodupIds s.participants) :=
  ⟨fun pool p h => by unfold addParticipant; rw [h]; simp,
    fun _ hr => (reachable_inv hr).nodupPool⟩

/-- Witness for C9: re-adding Alice to a pool already holding her id. -/
theorem c9_add_idempotent_nodup_witness :
    addParticipant pA [pA, pB] = (false, [pA, pB]) ∧ NodupIds sInitGF.participants :=
  ⟨c9_add_idempotent_nodup.1 [pA, pB] pA (by decide),
    c9_add_idempotent_nodup.2 sInitGF (Reachable.init [pA, pB] tiersGF (by decide))⟩

/-- C2 counterexample: there is no draw-session token — the orchestrator's
report handler accepts a winner report unconditionally.  After a reset that
cancelled a spin whose stop had picked Alice, delivering a report carrying
that cancelled session's winner still sets `pendingWinner` and moves the
phase to STOPPED. -/
theorem c2_stale_report_accepted_without_token :
    Reachable sReset ∧
    (stopSpin 0 (startSpin sInitGF)).slotPending = some pA ∧
    (onSpinComplete (some pA) sReset).pendingWinner = some pA ∧
    (onSpinComplete (some pA) sReset).phase = .stopped :=
  ⟨reachable_sReset, by decide, by decide, by decide⟩

/-- C2 amended: stale reports are suppressed not by a session token but
upstream — `reset` clears the slot machine's pending winner, the completion
dispatch reads that field at delivery time, so a post-reset delivery carries
a null winner, and `onSpinComplete` ignores null reports; hence a stale
delivery after reset leaves the state unchanged, with no pending winner and
a phase other than STOPPED. -/
theorem c2_reset_clears_slot_report (s : AppState) :
    onSpinComplete none s = s ∧
    (resetDraw s).slotPending = none ∧
    onSpinComplete ((resetDraw s).slotPending) (resetDraw s) = resetDraw s ∧
    (resetDraw s).pendingWinner = none ∧
    (resetDraw s).phase ≠ .stopped := by
  have hsp : (resetDraw s).slotPending = none := by
    unfold resetDraw applyUpdateButtons
    split <;> rfl
  have hpw : (resetDraw s).pendingWinner = none := by
    unfold resetDraw applyUpdateButtons
    split <;> rfl
  refine ⟨rfl, hsp, ?_, hpw, ?_⟩
  · rw [hsp]
    rfl
  · unfold resetDraw
    exact applyUpdateButtons_phase_ne_stopped (by simp)

/-- Witness for C2's amended statement on the fresh two-tier app. -/
theorem c2_reset_clears_slot_report_witness :
    onSpinComplete none sInitGF = sInitGF ∧
    (resetDraw sInitGF).slotPending = none ∧
    onSpinComplete ((resetDraw sInitGF).slotPending) (resetDraw sInitGF) =
      resetDraw sInitGF ∧
    (resetDraw sInitGF).pendingWinner = none ∧
    (resetDraw sInitGF).phase ≠ .stopped :=
  c2_reset_clears_slot_report sInitGF

/-- C8: the code can pass a null prize to `addWinner`.  In the reachable
state `sCrash` the confirm guard passes (STOPPED with a pending winner) while
the cursor sits at the queue end, so `getCurrentPrize()` is null and
`confirmWinner` hits the unguarded `prize.id` dereference in
`WinnerManager.addWinner` (a TypeError). -/
theorem c8_confirm_null_prize_crash :
    Reachable sCrash ∧ sCrash.phase = .stopped ∧ sCrash.pendingWinner ≠ none ∧
    canDraw (confirmStep 5 sCrash) = false ∧
    getCurrentPrize sCrash = none ∧ confirmWinner 5 sCrash = .crashNullPrize :=
  ⟨reachable_sCrash, by decide, by decide, by decide, by decide, by decide⟩

/-- C7 counterexample: `undoLastDraw` has no phase guard — in the reachable
state `s7` the phase is STOPPED (not READY), the ledger is non-empty, and
the call still pops the ledger. -/
theorem c7_undo_effect_outside_ready :
    Reachable s7 ∧ s7.phase = .stopped ∧ s7.winners ≠ [] ∧
    (undoStep s7).winners = [] ∧ (undoStep s7).winners ≠ s7.winners :=
  ⟨reachable_s7, by decide, by decide, by decide, by decide⟩

/-- C7 amended: `undoLastDraw` performs its effect (pop the last ledger
entry, retreat the cursor, re-add the participant) whenever the ledger is
non-empty, in any phase; with an empty ledger it reports nothing-to-undo
(`null`) and leaves the whole state unchanged. -/
theorem c7_undo_empty_guard (s : AppState) :
    (s.winners = [] → undoLastDraw s = (none, s)) ∧
    (s.winners ≠ [] → ∃ w, s.winners.getLast? = some w ∧
      (undoLastDraw s).1 = some w ∧
      (undoStep s).winners = s.winners.dropLast ∧
      (undoStep s).currentIndex = retreatCursor s.currentIndex ∧
      (undoStep s).participants = (addParticipant ⟨w.id, w.name⟩ s.participants).2) := by
  constructor
  · intro h
    unfold undoLastDraw
    rw [h]
    rfl
  · intro h
    cases hgl : s.winners.getLast? with
    | none => exact absurd (List.getLast?_eq_none_iff.mp hgl) h
    | some w =>
      obtain ⟨f1, _, _, _, f5, f6, _, _, _, _⟩ := applyUpdateButtons_fields
        { s with winners := s.winners.dropLast,
                 currentIndex := retreatCursor s.currentIndex,
                 participants := (addParticipant ⟨w.id, w.name⟩ s.participants).2,
                 phase := Phase.ready }
      refine ⟨w, rfl, ?_, ?_, ?_, ?_⟩
      · unfold undoLastDraw
        rw [hgl]
      · unfold undoStep undoLastDraw
        rw [hgl]
        exact f6
      · unfold undoStep undoLastDraw
        rw [hgl]
        exact f5
      · unfold undoStep undoLastDraw
        rw [hgl]
        exact f1

/-- Witness for C7's amended statement: the empty-ledger no-op on a fresh
app and the non-empty-ledger effect at the STOPPED state `s7`. -/
theorem c7_undo_empty_guard_witness :
    undoLastDraw sInitGF = (none, sInitGF) ∧
    (∃ w, s7.winners.getLast? = some w ∧
      (undoLastDraw s7).1 = some w ∧
      (undoStep s7).winners = s7.winners.dropLast ∧
      (undoStep s7).currentIndex = retreatCursor s7.currentIndex ∧
      (undoStep s7).participants = (addParticipant ⟨w.id, w.name⟩ s7.participants).2) :=
  ⟨(c7_undo_empty_guard sInitGF).1 (by decide),
    (c7_undo_empty_guard s7).2 (by decide)⟩

/-- C1 counterexample: at the reachable state `sCrash` the claim's premise
holds (STOPPED with a pending winner), yet performing the confirm (which
throws on the null current prize and commits nothing) followed by one undo
does not restore the ledger or the cursor — the undo removes the previous
winner instead. -/
theorem c1_crash_confirm_undo_not_roundtrip :
    Reachable sCrash ∧ sCrash.phase = .stopped ∧ sCrash.pendingWinner.isSome = true ∧
    (undoStep (confirmStep 5 sCrash)).winners ≠ sCrash.winners ∧
    (undoStep (confirmStep 5 sCrash)).currentIndex ≠ sCrash.currentIndex :=
  ⟨reachable_sCrash, by decide, by decide, by decide, by decide⟩

/-- C1 amended: from every reachable state, `n` committed confirm cycles
(spin, stop, report, confirm — each confirm actually committing, i.e. the
current prize is non-null) followed by `n` undos restore the winner ledger,
the pool membership up to order, and the prize-queue cursor exactly. -/
theorem c1_confirm_undo_roundtrip {s t : AppState} (ps : List (Nat × Nat))
    (hr : Reachable s) (hrun : runCycles ps s = some t) :
    (undoN ps.length t).winners = s.winners ∧
    List.Perm (undoN ps.length t).participants s.participants ∧
    (undoN ps.length t).currentIndex = s.currentIndex :=
  roundtrip_inv ps (reachable_inv hr) hrun

/-- Witness for C1's amended statement: one committed cycle on the fresh
two-tier app, then one undo. -/
theorem c1_confirm_undo_roundtrip_witness :
    runCycles [(0, 0)] sInitGF = some tRound ∧
    ((undoN 1 tRound).winners = sInitGF.winners ∧
      List.Perm (undoN 1 tRound).participants sInitGF.participants ∧
      (undoN 1 tRound).currentIndex = sInitGF.currentIndex) :=
  ⟨by decide,
    c1_confirm_undo_roundtrip [(0, 0)] (Reachable.init [pA, pB] tiersGF (by decide))
      (by decide)⟩

theorem canDraw_applyUpdateButtons (s : AppState) :
    canDraw (applyUpdateButtons s) = canDraw s := by
  unfold applyUpdateButtons canDraw
  split
  · rename_i hcond
    rcases hcond with hle | hemp
    · simp [hle]
    · simp [hemp]
  · rfl

theorem canDraw_selectPrize (tid : Int) (s : AppState) :
    canDraw (selectPrize tid s) = canDraw s := by
  unfold selectPrize
  split
  · rfl
  split
  · rfl
  split
  · rfl
  · exact canDraw_applyUpdateButtons _

/-- C3: the completion and draw-legality checks compare the ledger count
against the total queue length (the sum of the tier quantities), never the
cursor: `canDraw` is exactly "READY, ledger count below `Σ quantity`, pool
non-empty", it is invariant under manual prize selection, and `startSpin`
refuses exactly when the ledger count has reached the total. -/
theorem c3_completion_from_ledger {s : AppState} (hr : Reachable s) :
    (canDraw s = true ↔
      (s.phase = .ready ∧ s.winners.length < totalQuantity s.originalPrizes ∧
        s.participants ≠ [])) ∧
    (∀ tid : Int, canDraw (selectPrize tid s) = canDraw s) ∧
    (totalQuantity s.originalPrizes ≤ s.winners.length → startSpin s = s) := by
  have hq : s.prizeQueue.length = totalQuantity s.originalPrizes := by
    rw [(reachable_inv hr).queueEq, length_buildPrizeQueue]
  refine ⟨?_, fun tid => canDraw_selectPrize tid s, ?_⟩
  · unfold canDraw
    rw [hq]
    simp [List.isEmpty_iff, Nat.lt_iff_add_one_le, Nat.not_le, and_assoc]
  · intro h
    have hle : s.prizeQueue.length ≤ s.winners.length := by
      rw [hq]
      exact h
    unfold startSpin
    split
    all_goals rfl

/-- Witness for C3 on a fresh reachable app state. -/
theorem c3_completion_from_ledger_witness :
    (canDraw sInitGF = true ↔
      (sInitGF.phase = .ready ∧
        sInitGF.winners.length < totalQuantity sInitGF.originalPrizes ∧
        sInitGF.participants ≠ [])) ∧
    (∀ tid : Int, canDraw (selectPrize tid sInitGF) = canDraw sInitGF) ∧
    (totalQuantity sInitGF.originalPrizes ≤ sInitGF.winners.length →
      startSpin sInitGF = sInitGF) :=
  c3_completion_from_ledger (Reachable.init [pA, pB] tiersGF (by decide))

/-- C10: targeted removal of a winner removes exactly that ledger entry,
re-adds the participant to the pool, and leaves cursor, prize queue, phase
and pending winner untouched (only popLast-based undo moves the cursor);
the vacated prize instance is simply no longer in the ledger. -/
theorem c10_readd_frame {s : AppState} {pid : String} {w : WinnerEntry}
    (hr : Reachable s) (hw : w ∈ s.winners) (hid : w.id = pid) :
    (readdWinner pid s).1 = some w ∧
    (readdStep pid s).winners = s.winners.eraseP (fun e => e.id == pid) ∧
    (∀ e ∈ (readdStep pid s).winners, e.id ≠ pid) ∧
    (readdStep pid s).winners.length + 1 = s.winners.length ∧
    (readdStep pid s).participants = s.participants ++ [⟨w.id, w.name⟩] ∧
    (readdStep pid s).currentIndex = s.currentIndex ∧
    (readdStep pid s).prizeQueue = s.prizeQueue ∧
    (readdStep pid s).phase = s.phase ∧
    (readdStep pid s).pendingWinner = s.pendingWinner := by
  subst hid
  have hinv := reachable_inv hr
  have hfind : s.winners.find? (fun e => e.id == w.id) = some w :=
    find?_key_unique (fun e : WinnerEntry => e.id) hinv.nodupWin hw
  have hlen : (s.winners.eraseP (fun e => e.id == w.id)).length = s.winners.length - 1 :=
    List.length_eraseP_of_mem hw (by simp)
  have hne : 1 ≤ s.winners.length := List.length_pos.mpr (List.ne_nil_of_mem hw)
  have hany : s.participants.any (fun q => q.id == w.id) = false := by
    refine List.any_eq_false.mpr ?_
    intro q hq
    simpa using hinv.disj w hw q hq
  have hadd : (addParticipant ⟨w.id, w.name⟩ s.participants).2 =
      s.participants ++ [⟨w.id, w.name⟩] := by
    unfold addParticipant
    rw [hany]
    simp
  unfold readdStep readdWinner
  rw [hfind]
  refine ⟨rfl, rfl, ?_, ?_, ?_, rfl, rfl, rfl, rfl⟩
  · intro e he hc
    exact eraseP_key_not_mem (fun e : WinnerEntry => e.id) hinv.nodupWin hw e he hc
  · dsimp only
    omega
  · exact hadd

/-- Witness for C10: removing Alice's committed win from `s4a`. -/
theorem c10_readd_frame_witness :
    (readdStep "1" s4a).currentIndex = s4a.currentIndex ∧
    (readdStep "1" s4a).participants = s4a.participants ++ [⟨"1", "Alice"⟩] ∧
    (readdStep "1" s4a).phase = s4a.phase :=
  ⟨(c10_readd_frame (w := wA) reachable_s4a (by decide) rfl).2.2.2.2.2.1,
    (c10_readd_frame (w := wA) reachable_s4a (by decide) rfl).2.2.2.2.1,
    (c10_readd_frame (w := wA) reachable_s4a (by decide) rfl).2.2.2.2.2.2.2.1⟩

/-- C4 counterexample: after awarding both instances of the two-instance
tier and then removing the instance-1 winner by targeted re-add (vacating an
earlier slot), the tier still has an unawarded instance, yet
`selectPrize` (occurrence = awardedCount + 1 = 2) moves the cursor to the
instance-2 slot, which is still awarded in the ledger, while the vacated
instance-1 slot is skipped. -/
theorem c4_select_lands_on_awarded_slot :
    Reachable s4 ∧
    ((s4.winners.filter (fun w => w.prize.id == 1)).length : Int) < 2 ∧
    (selectPrize 1 s4).currentIndex = 1 ∧
    s4.prizeQueue[1]? = some ⟨1, "P", "P", 2, 2⟩ ∧
    (∃ w ∈ s4.winners, w.prize.id = 1 ∧ w.prize.inst = 2) ∧
    (∀ w ∈ s4.winners, ¬(w.prize.id = 1 ∧ w.prize.inst = 1)) :=
  ⟨reachable_s4, by decide, by decide, by decide, by decide, by decide⟩

/-- C4 amended: manual prize selection jumps to the
`(awardedCountForTier + 1)`-th slot of the tier, whose instance number is
`awardedCount + 1`; when the awarded instances of that tier all lie in
`1..awardedCount` (in-order awards, no vacated earlier slot) that slot has
not yet been awarded.  (After a targeted removal vacates an earlier slot the
jump can land on an already-awarded slot, see the counterexample.) -/
theorem c4_selectPrize_next_unawarded {s : AppState} {t : Prize}
    (hq : s.prizeQueue = buildPrizeQueue s.originalPrizes)
    (hnd : (s.originalPrizes.map (fun p => p.id)).Nodup)
    (ht : t ∈ s.originalPrizes)
    (hk : ((s.winners.filter (fun w => w.prize.id == t.id)).length : Int) < t.quantity)
    (hpref : ∀ w ∈ s.winners, w.prize.id = t.id →
      w.prize.inst ≤ (s.winners.filter (fun w => w.prize.id == t.id)).length) :
    ∃ idx e, selectPrize t.id s = applyUpdateButtons { s with currentIndex := idx } ∧
      s.prizeQueue[idx]? = some e ∧ e.id = t.id ∧
      e.inst = (s.winners.filter (fun w => w.prize.id == t.id)).length + 1 ∧
      ∀ w ∈ s.winners, ¬(w.prize.id = t.id ∧ w.prize.inst = e.inst) := by
  obtain ⟨idx, e, _, hsel, hget, hid, hinst⟩ := selectPrize_lands hq hnd ht hk
  refine ⟨idx, e, hsel, hget, hid, hinst, ?_⟩
  intro w hwmem hc
  have := hpref w hwmem hc.1
  rw [hc.2, hinst] at this
  omega

/-- Witness for C4's amended statement: a fresh app on the two-instance
tier selects the instance-1 slot. -/
theorem c4_selectPrize_next_unawarded_witness :
    ∃ idx e, selectPrize 1 (initState [pA] tiersP2) =
        applyUpdateButtons { initState [pA] tiersP2 with currentIndex := idx } ∧
      (initState [pA] tiersP2).prizeQueue[idx]? = some e ∧ e.id = 1 ∧
      e.inst = ((initState [pA] tiersP2).winners.filter
        (fun w => w.prize.id == 1)).length + 1 ∧
      ∀ w ∈ (initState [pA] tiersP2).winners, ¬(w.prize.id = 1 ∧ w.prize.inst = e.inst) :=
  c4_selectPrize_next_unawarded (t := ⟨1, "P", "P", 2⟩) (by decide) (by decide)
    (by decide) (by decide) (by decide)

end Lottery
